import Mathlib

/-!
Shallow embedding of the allocation logic of the Streamlit portfolio app
in src/xyz.py.  Python floats are modelled as exact rationals; pandas
Series.round(2) is modelled as exact round-half-to-even at two decimal
places, Series.idxmax() as the position of the first occurrence of the
maximum, and pd.to_numeric(..., errors="coerce").fillna(0) as a coercion
of non-numeric cells to 0.
-/

/-- Round half to even of a rational, the rounding used by numpy/pandas. -/
def rhe (x : ℚ) : ℤ :=
  if x - ⌊x⌋ = 1/2 then (if 2 ∣ ⌊x⌋ then ⌊x⌋ else ⌊x⌋ + 1) else round x

/-- Rounding to two decimal places; models the `.round(2)` call on line 57 of src/xyz.py. -/
def round2 (x : ℚ) : ℚ := (rhe (x * 100) : ℚ) / 100

/-- Position of the first occurrence of the maximum value; models `Series.idxmax()`
(line 62 of src/xyz.py) on a default RangeIndex, where labels equal positions. -/
def idxmax : List ℚ → Nat
  | [] => 0
  | [_] => 0
  | x :: y :: ys => if (y :: ys).getD (idxmax (y :: ys)) 0 > x then idxmax (y :: ys) + 1 else 0

/-- Models `rounded.at[idx] = rounded.at[idx] + residue` (line 65 of src/xyz.py). -/
def addToIdx (l : List ℚ) (i : Nat) (r : ℚ) : List ℚ := l.set i (l.getD i 0 + r)

/-- Lines 51 to 56 of src/xyz.py: equal shares when the total is zero,
otherwise `(vals / total) * 100.0`. -/
def normalizedOf (vals : List ℚ) : List ℚ :=
  if vals.sum = 0 then List.replicate vals.length (100 / (vals.length : ℚ))
  else vals.map (fun v => v / vals.sum * 100)

/-- Lines 58 to 65 of src/xyz.py: residue correction after rounding.
If `abs(residue) > 1e-9` the residue is added at `idxmax` when the rounded sum
is nonzero, otherwise at position 0 (`rounded.index[0]`). -/
def fixResidue (rounded : List ℚ) : List ℚ :=
  if 1/1000000000 < |100 - rounded.sum| then
    if rounded.sum ≠ 0 then addToIdx rounded (idxmax rounded) (100 - rounded.sum)
    else addToIdx rounded 0 (100 - rounded.sum)
  else rounded

/-- Rounding stage followed by residue correction (lines 57 to 65 of src/xyz.py). -/
def roundAndFix (normalized : List ℚ) : List ℚ := fixResidue (normalized.map round2)

/-- The allocation-column computation of `normalize_allocations`
(lines 50 to 65 of src/xyz.py), on the coerced numeric values. -/
def normalizeVals (vals : List ℚ) : List ℚ := roundAndFix (normalizedOf vals)

/-- Allocation cell of the editable column: either a numeric value or a
non-numeric entry, which `pd.to_numeric(..., errors="coerce").fillna(0)`
turns into 0. -/
inductive AllocCell where
  | num (q : ℚ)
  | invalid (s : String)

/-- Models `pd.to_numeric(col, errors="coerce").fillna(0)` on one cell
(lines 43 and 50 of src/xyz.py). -/
def toNumericFill0 : AllocCell → ℚ
  | AllocCell.num q => q
  | AllocCell.invalid _ => 0

/-- One row of the portfolio DataFrame built by `default_portfolio_df`
(lines 17 to 39 of src/xyz.py): columns Asset, Risk, Reward,
Time of Investment, Allocation (%), Source, Reasons. -/
structure Row where
  asset : String
  risk : String
  reward : String
  timeOfInvestment : String
  alloc : AllocCell
  source : String
  reasons : String

/-- The numeric view of the Allocation (%) column. -/
def allocVals (df : List Row) : List ℚ := df.map (fun r => toNumericFill0 r.alloc)

/-- Models `sum_allocations` (lines 42 to 43 of src/xyz.py). -/
def sum_allocations (df : List Row) : ℚ := (allocVals df).sum

/-- Models `is_allocation_ok` (lines 45 to 46 of src/xyz.py); the app always
calls it with the default tolerance `tol = 1e-6`. -/
def is_allocation_ok (df : List Row) (tol : ℚ) : Bool :=
  decide (|sum_allocations df - 100| ≤ tol)

/-- Models `normalize_allocations` (lines 48 to 67 of src/xyz.py): the function
works on a copy, recomputes the Allocation (%) column and leaves every other
column unchanged. -/
def normalize_allocations (df : List Row) : List Row :=
  List.zipWith (fun r q => { r with alloc := AllocCell.num q }) df
    (normalizeVals (allocVals df))

/-- Row with empty text columns, used to build test frames whose only
relevant column is Allocation (%). -/
def rowOfCell (c : AllocCell) : Row :=
  { asset := "", risk := "", reward := "", timeOfInvestment := "",
    alloc := c, source := "", reasons := "" }

/-- Frame holding the given numeric allocations. -/
def dfOfAllocs (qs : List ℚ) : List Row := qs.map (fun q => rowOfCell (AllocCell.num q))

/-- Models `default_portfolio_df` (lines 17 to 39 of src/xyz.py). -/
def default_portfolio_df : List Row :=
  [ { asset := "Fixed Deposits (FD)", risk := "Very Low", reward := "5-7",
      timeOfInvestment := "1-5 years", alloc := AllocCell.num 30,
      source := "RBI, SBI",
      reasons := "Provides stable returns in the 5–7% range. Perfect for short to medium-term goals (1–5 years). No market volatility; liquidity with penalty for early withdrawal." },
    { asset := "Public Provident Fund (PPF)", risk := "Very Low", reward := "7.1 (current)",
      timeOfInvestment := "15 years", alloc := AllocCell.num 20,
      source := "India Post",
      reasons := "Government-backed; one of India\x27s safest long-term instruments. EEE tax treatment; builds retirement corpus." },
    { asset := "Debt Mutual Funds", risk := "Low", reward := "6-8",
      timeOfInvestment := "3-5 years", alloc := AllocCell.num 20,
      source := "AMFI",
      reasons := "Suitable for low-risk investors seeking better post-tax returns than FD. Offers liquidity, diversification, and indexation benefits." },
    { asset := "Government Bonds (G-Secs)", risk := "Very Low", reward := "6-7",
      timeOfInvestment := "5+ years", alloc := AllocCell.num 20,
      source := "RBI",
      reasons := "Considered risk-free (backed by Government of India). Good for wealth preservation and long-term stability." },
    { asset := "Senior Citizens Savings Scheme (SCSS)", risk := "Very Low", reward := "8.2 (current)",
      timeOfInvestment := "5 years", alloc := AllocCell.num 10,
      source := "India Post",
      reasons := "Designed for senior citizens with one of the highest safe rates (currently 8.2%). Quarterly payouts provide regular income." } ]

/-- Sets the Allocation (%) column to the given values, as the preset branch
assignments do (lines 94, 96, 98 of src/xyz.py). -/
def setAllocColumn (df : List Row) (qs : List ℚ) : List Row :=
  List.zipWith (fun r q => { r with alloc := AllocCell.num q }) df qs

/-- Models the preset application branch (lines 92 to 99 of src/xyz.py). -/
def applyPreset (preset : String) (df : List Row) : List Row :=
  if preset = "Default Conservative" then setAllocColumn df [30, 20, 20, 20, 10]
  else if preset = "Ultra-safe (more FD/G-Secs)" then setAllocColumn df [40, 15, 10, 25, 10]
  else if preset = "Income-focused (more PPF/SCSS)" then setAllocColumn df [20, 30, 10, 20, 20]
  else df

/-- True when a CSV field must be quoted under QUOTE_MINIMAL: it contains the
separator, the quote character or a line break. -/
def needsQuote (s : String) : Bool :=
  s.toList.any (fun c => c == ',' || c == '\"' || c == '\n' || c == '\r')

/-- Doubles the quote characters of a field. -/
def escapeQuotes (s : String) : String :=
  String.join (s.toList.map (fun c => if c == '\"' then "\"\"" else String.singleton c))

/-- CSV rendering of one field with QUOTE_MINIMAL quoting, the default of
pandas `to_csv`. -/
def csvField (s : String) : String :=
  if needsQuote s then "\"" ++ escapeQuotes s ++ "\"" else s

/-- Text written for the Allocation (%) cell: the float repr for numeric
values, the original text otherwise. -/
def showCell : AllocCell → String
  | AllocCell.num q => if q.den = 1 then toString q.num ++ ".0" else toString q
  | AllocCell.invalid s => s

/-- The fields of one CSV data row, in column order. -/
def rowFields (r : Row) : List String :=
  [r.asset, r.risk, r.reward, r.timeOfInvestment, showCell r.alloc, r.source, r.reasons]

/-- The column names of the exported frame. -/
def csvHeaderFields : List String :=
  ["Asset", "Risk", "Reward", "Time of Investment", "Allocation (%)", "Source", "Reasons"]

/-- One CSV line: the escaped fields joined by commas. -/
def csvLine (fields : List String) : String :=
  String.intercalate "," (fields.map csvField)

/-- The lines of `df.to_csv(buf, index=False)`: the header line followed by one
line per row.  pandas `to_csv` is an external library call; it is modelled here
at line granularity from its documented output format (QUOTE_MINIMAL quoting,
no index column, one record per row). -/
def df_to_csv_lines (df : List Row) : List String :=
  csvLine csvHeaderFields :: df.map (fun r => csvLine (rowFields r))

/-- The full CSV text: every line is terminated by a newline. -/
def df_to_csv_string (df : List Row) : String :=
  String.join ((df_to_csv_lines df).map (fun l => l ++ "\n"))

/-- Models `df_to_csv_bytes` (lines 69 to 72 of src/xyz.py): the CSV text
encoded as UTF-8 bytes. -/
def df_to_csv_bytes (df : List Row) : ByteArray := (df_to_csv_string df).toUTF8

/-- Specification-side description of the positive-sum branch, written from the
words of claim C2: each output is the input weight divided by the input sum,
times 100, rounded to two decimals; when the residue 100 minus the rounded sum
exceeds 1e-9 in absolute value, the whole residue is added to the entry holding
the largest rounded value, first occurrence on ties. -/
def normalizeSpecPos (vals : List ℚ) : List ℚ :=
  if 1/1000000000 < |100 - (vals.map (fun v => round2 (v / vals.sum * 100))).sum| then
    addToIdx (vals.map (fun v => round2 (v / vals.sum * 100)))
      (idxmax (vals.map (fun v => round2 (v / vals.sum * 100))))
      (100 - (vals.map (fun v => round2 (v / vals.sum * 100))).sum)
  else vals.map (fun v => round2 (v / vals.sum * 100))

/-- Replaces a possibly non-numeric allocation cell by its coerced numeric
value, the reference point for the coercion claim. -/
def sanitizeRow (r : Row) : Row :=
  { r with alloc := AllocCell.num (toNumericFill0 r.alloc) }

/-- The non-allocation columns of a row: Asset, Risk, Reward,
Time of Investment, Source, Reasons. -/
def stripAlloc (r : Row) : String × String × String × String × String × String :=
  (r.asset, r.risk, r.reward, r.timeOfInvestment, r.source, r.reasons)

/-! Helper lemmas about the rounding primitive. -/

theorem rhe_abs_sub (x : ℚ) : |(rhe x : ℚ) - x| ≤ 1/2 := by
  unfold rhe
  split
  · rename_i h
    have habs : |(1/2 : ℚ)| = 1/2 := abs_of_pos (by norm_num)
    split
    · rw [abs_sub_comm]
      rw [show x - ((⌊x⌋ : ℤ) : ℚ) = 1/2 from h]
      rw [habs]
    · have hx : ((((⌊x⌋ : ℤ) + 1 : ℤ)) : ℚ) - x = 1/2 := by
        push_cast
        linarith
      rw [hx, habs]
  · rw [abs_sub_comm]
    exact abs_sub_round x

theorem rhe_nonneg (x : ℚ) (hx : 0 ≤ x) : 0 ≤ rhe x := by
  unfold rhe
  split
  · split
    · exact Int.floor_nonneg.mpr hx
    · have : (0 : ℤ) ≤ ⌊x⌋ := Int.floor_nonneg.mpr hx
      omega
  · rw [round_eq]
    exact Int.floor_nonneg.mpr (by linarith)

theorem rhe_intCast (k : ℤ) : rhe (k : ℚ) = k := by
  unfold rhe
  rw [Int.floor_intCast]
  rw [if_neg (by norm_num)]
  exact round_intCast k

theorem round2_abs_sub (x : ℚ) : |round2 x - x| ≤ 1/200 := by
  have h := rhe_abs_sub (x * 100)
  unfold round2
  have heq : (rhe (x * 100) : ℚ) / 100 - x = ((rhe (x * 100) : ℚ) - x * 100) / 100 := by
    ring
  rw [heq, abs_div]
  rw [show |(100 : ℚ)| = 100 by norm_num]
  rw [div_le_div_iff₀ (by norm_num) (by norm_num)]
  linarith

theorem round2_nonneg (x : ℚ) (hx : 0 ≤ x) : 0 ≤ round2 x := by
  unfold round2
  have : (0 : ℚ) ≤ (rhe (x * 100) : ℚ) := by
    exact_mod_cast rhe_nonneg (x * 100) (by positivity)
  positivity

theorem round2_hundredth (k : ℤ) : round2 ((k : ℚ) / 100) = (k : ℚ) / 100 := by
  unfold round2
  rw [div_mul_cancel₀ _ (by norm_num : (100 : ℚ) ≠ 0), rhe_intCast]

/-! Helper lemmas about list primitives. -/

@[simp] theorem getD_cons_zero (a : ℚ) (l : List ℚ) : (a :: l).getD 0 0 = a := rfl

@[simp] theorem getD_cons_succ (a : ℚ) (l : List ℚ) (i : Nat) :
    (a :: l).getD (i + 1) 0 = l.getD i 0 := rfl

theorem getD_mem : ∀ (l : List ℚ) (i : Nat), i < l.length → l.getD i 0 ∈ l
  | a :: _, 0, _ => by simp
  | a :: l, i + 1, h => by
    rw [getD_cons_succ]
    exact List.mem_cons_of_mem a (getD_mem l i (by simpa using h))

theorem sum_addToIdx : ∀ (l : List ℚ) (i : Nat), i < l.length → ∀ r : ℚ,
    (addToIdx l i r).sum = l.sum + r
  | a :: l, 0, _, r => by
    show ((a + r) :: l).sum = (a :: l).sum + r
    simp [List.sum_cons]
    ring
  | a :: l, i + 1, h, r => by
    show (a :: addToIdx l i r).sum = (a :: l).sum + r
    have ih := sum_addToIdx l i (by simpa using h) r
    simp [List.sum_cons, ih]
    ring

theorem length_addToIdx (l : List ℚ) (i : Nat) (r : ℚ) :
    (addToIdx l i r).length = l.length := by
  simp [addToIdx]

theorem mem_addToIdx (l : List ℚ) (i : Nat) (r : ℚ) (v : ℚ)
    (hv : v ∈ addToIdx l i r) : v ∈ l ∨ v = l.getD i 0 + r :=
  List.mem_or_eq_of_mem_set hv

theorem idxmax_lt : ∀ (l : List ℚ), l ≠ [] → idxmax l < l.length
  | [], h => absurd rfl h
  | [_], _ => by simp [idxmax]
  | x :: y :: ys, _ => by
    show idxmax (x :: y :: ys) < (y :: ys).length + 1
    rw [idxmax]
    split
    · have := idxmax_lt (y :: ys) (by simp)
      omega
    · omega

theorem idxmax_getD_ge : ∀ (l : List ℚ), ∀ z ∈ l, z ≤ l.getD (idxmax l) 0
  | [], z, hz => absurd hz (List.not_mem_nil z)
  | [x], z, hz => by
    simp only [List.mem_singleton] at hz
    subst hz
    simp [idxmax]
  | x :: y :: ys, z, hz => by
    have ih := idxmax_getD_ge (y :: ys)
    rw [idxmax]
    split
    · rename_i hgt
      rw [getD_cons_succ]
      rcases List.mem_cons.mp hz with rfl | hz'
      · exact le_of_lt hgt
      · exact ih z hz'
    · rename_i hle
      push_neg at hle
      rw [getD_cons_zero]
      rcases List.mem_cons.mp hz with rfl | hz'
      · exact le_rfl
      · exact le_trans (ih z hz') hle

theorem idxmax_eq_zero_of_all_zero : ∀ (l : List ℚ), (∀ y ∈ l, y = 0) → idxmax l = 0
  | [], _ => rfl
  | [_], _ => rfl
  | x :: y :: ys, h => by
    rw [idxmax, if_neg]
    have hx : x = 0 := h x (by simp)
    have hm : (y :: ys).getD (idxmax (y :: ys)) 0 = 0 := by
      have hlt := idxmax_lt (y :: ys) (by simp)
      exact h _ (List.mem_cons_of_mem x (getD_mem (y :: ys) _ hlt))
    rw [hm, hx]
    exact lt_irrefl 0

theorem idxmax_cons_eq_zero (x : ℚ) (rest : List ℚ) (h : ∀ y ∈ rest, y ≤ x) :
    idxmax (x :: rest) = 0 := by
  cases rest with
  | nil => rfl
  | cons y ys =>
    rw [idxmax, if_neg]
    push_neg
    exact h _ (getD_mem (y :: ys) _ (idxmax_lt (y :: ys) (by simp)))

theorem sum_eq_zero_mem_zero : ∀ (l : List ℚ), (∀ y ∈ l, 0 ≤ y) → l.sum = 0 →
    ∀ y ∈ l, y = 0
  | [], _, _, y, hy => absurd hy (List.not_mem_nil y)
  | a :: l, hnn, hs, y, hy => by
    have h1 : 0 ≤ l.sum := List.sum_nonneg (fun x hx => hnn x (List.mem_cons_of_mem a hx))
    have h2 : 0 ≤ a := hnn a (by simp)
    rw [List.sum_cons] at hs
    have ha : a = 0 := by linarith
    have hl : l.sum = 0 := by linarith
    rcases List.mem_cons.mp hy with rfl | hy'
    · exact ha
    · exact sum_eq_zero_mem_zero l (fun x hx => hnn x (List.mem_cons_of_mem a hx)) hl y hy'

theorem sum_map_div_mul (l : List ℚ) (t : ℚ) :
    (l.map (fun v => v / t * 100)).sum = l.sum / t * 100 := by
  induction l with
  | nil => simp
  | cons a tl ih =>
    simp only [List.map_cons, List.sum_cons, ih]
    ring

theorem abs_sum_map_round2_sub (l : List ℚ) :
    |(l.map round2).sum - l.sum| ≤ (l.length : ℚ) / 200 := by
  induction l with
  | nil => simp
  | cons a tl ih =>
    have h1 := round2_abs_sub a
    simp only [List.map_cons, List.sum_cons, List.length_cons]
    have heq : round2 a + (tl.map round2).sum - (a + tl.sum)
        = (round2 a - a) + ((tl.map round2).sum - tl.sum) := by ring
    rw [heq]
    calc |(round2 a - a) + ((tl.map round2).sum - tl.sum)|
        ≤ |round2 a - a| + |(tl.map round2).sum - tl.sum| := abs_add _ _
      _ ≤ 1/200 + (tl.length : ℚ) / 200 := add_le_add h1 ih
      _ = ((tl.length : ℚ) + 1) / 200 := by ring
      _ = (((tl.length + 1 : Nat)) : ℚ) / 200 := by push_cast; ring

theorem sum_map_round2_hundredths (l : List ℚ) :
    ∃ K : ℤ, (l.map round2).sum = (K : ℚ) / 100 := by
  induction l with
  | nil => exact ⟨0, by simp⟩
  | cons a tl ih =>
    obtain ⟨K, hK⟩ := ih
    refine ⟨rhe (a * 100) + K, ?_⟩
    simp only [List.map_cons, List.sum_cons, hK]
    unfold round2
    push_cast
    ring

/-! Structural lemmas about the two stages of the normalizer. -/

theorem length_normalizedOf (vals : List ℚ) : (normalizedOf vals).length = vals.length := by
  unfold normalizedOf
  split <;> simp

theorem normalizedOf_ne_nil (vals : List ℚ) (h : vals ≠ []) : normalizedOf vals ≠ [] := by
  have hlen := length_normalizedOf vals
  intro hc
  rw [hc] at hlen
  exact h (List.length_eq_zero.mp hlen.symm)

theorem sum_normalizedOf (vals : List ℚ) (h : vals ≠ []) : (normalizedOf vals).sum = 100 := by
  unfold normalizedOf
  split
  · rw [List.sum_replicate, nsmul_eq_mul]
    have hn : (vals.length : ℚ) ≠ 0 := by
      have : 0 < vals.length := List.length_pos.mpr h
      exact Nat.cast_ne_zero.mpr (by omega)
    field_simp
  · rename_i h0
    rw [sum_map_div_mul, div_self h0]
    norm_num

theorem nonneg_normalizedOf (vals : List ℚ) (hnn : ∀ v ∈ vals, 0 ≤ v) :
    ∀ v ∈ normalizedOf vals, 0 ≤ v := by
  unfold normalizedOf
  split
  · intro v hv
    rw [List.eq_of_mem_replicate hv]
    positivity
  · intro v hv
    obtain ⟨x, hx, rfl⟩ := List.mem_map.mp hv
    have hs : 0 ≤ vals.sum := List.sum_nonneg hnn
    exact mul_nonneg (div_nonneg (hnn x hx) hs) (by norm_num)

theorem length_roundAndFix (l : List ℚ) : (roundAndFix l).length = l.length := by
  unfold roundAndFix fixResidue
  split
  · split <;> simp [length_addToIdx]
  · simp

theorem length_normalizeVals (vals : List ℚ) : (normalizeVals vals).length = vals.length := by
  unfold normalizeVals
  rw [length_roundAndFix, length_normalizedOf]

theorem sum_roundAndFix (l : List ℚ) (h : l ≠ []) : (roundAndFix l).sum = 100 := by
  obtain ⟨K, hK⟩ := sum_map_round2_hundredths l
  have hlen : 0 < (l.map round2).length := by
    simpa [List.length_map] using List.length_pos.mpr h
  have hne : l.map round2 ≠ [] := List.length_pos.mp hlen
  unfold roundAndFix fixResidue
  split
  · split
    · rw [sum_addToIdx _ _ (idxmax_lt _ hne) _]
      ring
    · rw [sum_addToIdx _ _ hlen _]
      ring
  · rename_i hres
    push_neg at hres
    rw [hK] at hres ⊢
    have h1 : |((10000 - K : ℤ) : ℚ)| ≤ 100 / 1000000000 := by
      push_cast
      have heq : (10000 : ℚ) - K = 100 * (100 - (K : ℚ) / 100) := by ring
      rw [heq, abs_mul, abs_of_pos (show (0 : ℚ) < 100 by norm_num)]
      linarith
    have h2 : |(10000 - K : ℤ)| < 1 := by
      have : |((10000 - K : ℤ) : ℚ)| < 1 := lt_of_le_of_lt h1 (by norm_num)
      rw [← Int.cast_abs] at this
      exact_mod_cast this
    have h3 : K = 10000 := by
      have := abs_lt.mp h2
      omega
    rw [h3]
    norm_num

theorem sum_normalizeVals (vals : List ℚ) (h : vals ≠ []) :
    (normalizeVals vals).sum = 100 :=
  sum_roundAndFix _ (normalizedOf_ne_nil vals h)

theorem roundAndFix_hundredths (l : List ℚ) :
    ∀ v ∈ roundAndFix l, ∃ k : ℤ, v = (k : ℚ) / 100 := by
  obtain ⟨K, hK⟩ := sum_map_round2_hundredths l
  have hmemR : ∀ v ∈ l.map round2, ∃ k : ℤ, v = (k : ℚ) / 100 := by
    intro v hv
    obtain ⟨x, hx, rfl⟩ := List.mem_map.mp hv
    exact ⟨rhe (x * 100), rfl⟩
  unfold roundAndFix fixResidue
  split
  · split
    · intro v hv
      rcases mem_addToIdx _ _ _ v hv with hvR | hveq
      · exact hmemR v hvR
      · by_cases hl : (l.map round2) = []
        · rw [hl] at hv
          exact absurd hv (by simp [addToIdx])
        · obtain ⟨k1, hk1⟩ := hmemR _ (getD_mem _ _ (idxmax_lt _ hl))
          refine ⟨k1 + (10000 - K), ?_⟩
          rw [hveq, hk1, hK]
          push_cast
          ring
    · intro v hv
      rcases mem_addToIdx _ _ _ v hv with hvR | hveq
      · exact hmemR v hvR
      · by_cases hl : (l.map round2) = []
        · rw [hl] at hv
          exact absurd hv (by simp [addToIdx])
        · obtain ⟨k1, hk1⟩ := hmemR _ (getD_mem _ 0 (List.length_pos.mpr hl))
          refine ⟨k1 + (10000 - K), ?_⟩
          rw [hveq, hk1, hK]
          push_cast
          ring
  · exact hmemR

theorem normalizeVals_fixed (vals : List ℚ) (h : vals ≠ [])
    (hh : ∀ v ∈ vals, ∃ k : ℤ, v = (k : ℚ) / 100) (hs : vals.sum = 100) :
    normalizeVals vals = vals := by
  have h100 : vals.sum ≠ 0 := by
    rw [hs]
    norm_num
  unfold normalizeVals normalizedOf
  rw [if_neg h100, hs]
  have hmap : vals.map (fun v => v / 100 * 100) = vals := by
    have heq : ∀ v ∈ vals, v / 100 * 100 = id v :=
      fun v _ => div_mul_cancel₀ v (by norm_num)
    rw [List.map_congr_left heq, List.map_id]
  rw [hmap]
  unfold roundAndFix
  have hround : vals.map round2 = vals := by
    have heq : ∀ v ∈ vals, round2 v = id v := by
      intro v hv
      obtain ⟨k, rfl⟩ := hh v hv
      exact round2_hundredth k
    rw [List.map_congr_left heq, List.map_id]
  rw [hround]
  unfold fixResidue
  rw [hs]
  rw [if_neg (by norm_num)]

theorem normalizeVals_ne_nil (vals : List ℚ) (h : vals ≠ []) : normalizeVals vals ≠ [] := by
  have hlen := length_normalizeVals vals
  intro hc
  rw [hc] at hlen
  exact h (List.length_eq_zero.mp hlen.symm)

theorem normalizeVals_idem (vals : List ℚ) (h : vals ≠ []) :
    normalizeVals (normalizeVals vals) = normalizeVals vals :=
  normalizeVals_fixed _ (normalizeVals_ne_nil vals h)
    (fun v hv => roundAndFix_hundredths (normalizedOf vals) v hv)
    (sum_normalizeVals vals h)

theorem roundAndFix_nonneg (l : List ℚ) (h : l ≠ []) (hnn : ∀ x ∈ l, 0 ≤ x)
    (hsum : l.sum = 100) (hlen : l.length ≤ 141) :
    ∀ v ∈ roundAndFix l, 0 ≤ v := by
  set R := l.map round2 with hR
  have hRlen : R.length = l.length := by simp [hR]
  have hRne : R ≠ [] := by
    rw [hR]
    simp only [ne_eq, List.map_eq_nil]
    exact h
  have hRnn : ∀ y ∈ R, 0 ≤ y := by
    intro y hy
    rw [hR] at hy
    obtain ⟨x, hx, rfl⟩ := List.mem_map.mp hy
    exact round2_nonneg x (hnn x hx)
  have hSub := abs_sum_map_round2_sub l
  rw [← hR, hsum] at hSub
  have hS_up : R.sum ≤ 100 + (l.length : ℚ) / 200 := by
    have := (abs_le.mp hSub).2
    linarith
  have hn1 : (1 : ℚ) ≤ (l.length : ℚ) := by
    have h1 : 0 < l.length := List.length_pos.mpr h
    exact_mod_cast h1
  have hn141 : (l.length : ℚ) ≤ 141 := by exact_mod_cast hlen
  unfold roundAndFix fixResidue
  rw [← hR]
  split
  · split
    · intro v hv
      rcases mem_addToIdx _ _ _ v hv with hvR | hveq
      · exact hRnn v hvR
      · have hilt := idxmax_lt R hRne
        have hMnn : 0 ≤ R.getD (idxmax R) 0 := hRnn _ (getD_mem R _ hilt)
        have hSM : R.sum ≤ (l.length : ℚ) * R.getD (idxmax R) 0 := by
          have hle := List.sum_le_card_nsmul R _ (idxmax_getD_ge R)
          rw [nsmul_eq_mul, hRlen] at hle
          exact hle
        rw [hveq]
        nlinarith [mul_nonneg (sub_nonneg.mpr hn141) (sub_nonneg.mpr hn1),
          mul_nonneg (sub_nonneg.mpr hS_up) (sub_nonneg.mpr hn1)]
    · rename_i hres hSz
      push_neg at hSz
      intro v hv
      rcases mem_addToIdx _ _ _ v hv with hvR | hveq
      · exact hRnn v hvR
      · rw [hveq, hSz]
        have h0 : 0 ≤ R.getD 0 0 := by
          refine hRnn _ (getD_mem R 0 ?_)
          rw [hRlen]
          exact List.length_pos.mpr h
        linarith
  · exact hRnn

/- Basic sanity checks of the model on the examples of the spec. -/
example : normalizeVals [10, 10, 10] = [3334/100, 3333/100, 3333/100] := by
  norm_num [normalizeVals, normalizedOf, roundAndFix, fixResidue, addToIdx, idxmax,
    round2, rhe, round_eq, abs_of_pos, abs_of_neg, abs_of_nonneg, List.replicate]
example : normalizeVals [0, 0, 0, 0, 0] = [20, 20, 20, 20, 20] := by
  norm_num [normalizeVals, normalizedOf, roundAndFix, fixResidue, addToIdx, idxmax,
    round2, rhe, round_eq, abs_of_pos, abs_of_neg, abs_of_nonneg, List.replicate]
example : normalizeVals [30, 20, 20, 20, 10] = [30, 20, 20, 20, 10] := by
  norm_num [normalizeVals, normalizedOf, roundAndFix, fixResidue, addToIdx, idxmax,
    round2, rhe, round_eq, abs_of_pos, abs_of_neg, abs_of_nonneg, List.replicate]

/-! Claims. -/

/-- Claim C1: for every non-empty sequence of non-negative weights,
`normalize_allocations` returns a sequence of the same length whose sum equals
100.00 within a tolerance of 1e-9 (the column computation is `normalizeVals`;
in exact arithmetic the sum is in fact exactly 100). -/
theorem C1_normalize_length_and_sum (vals : List ℚ) (h : vals ≠ [])
    (hnn : ∀ v ∈ vals, 0 ≤ v) :
    (normalizeVals vals).length = vals.length ∧
      |(normalizeVals vals).sum - 100| ≤ 1/1000000000 := by
  refine ⟨length_normalizeVals vals, ?_⟩
  rw [sum_normalizeVals vals h]
  norm_num

/-- Witness for C1 at the concrete input [10, 10, 10]. -/
theorem C1_witness :
    ([10, 10, 10] : List ℚ) ≠ [] ∧ (∀ v ∈ ([10, 10, 10] : List ℚ), 0 ≤ v) ∧
      ((normalizeVals [10, 10, 10]).length = ([10, 10, 10] : List ℚ).length ∧
        |(normalizeVals [10, 10, 10]).sum - 100| ≤ 1/1000000000) :=
  ⟨by simp, by norm_num [List.forall_mem_cons],
    C1_normalize_length_and_sum [10, 10, 10] (by simp) (by norm_num [List.forall_mem_cons])⟩

/-- Claim C2: on every non-empty non-negative input with positive sum the code
computes exactly what the spec describes (round each share to two decimals,
then add the whole residue at the first maximal rounded entry when it exceeds
1e-9 in absolute value), and the outputs sum to exactly 100. -/
theorem C2_positive_sum_refines_spec (vals : List ℚ) (h : vals ≠ [])
    (hnn : ∀ v ∈ vals, 0 ≤ v) (hpos : 0 < vals.sum) :
    normalizeVals vals = normalizeSpecPos vals ∧ (normalizeSpecPos vals).sum = 100 := by
  have h0 : vals.sum ≠ 0 := ne_of_gt hpos
  have hnorm : normalizedOf vals = vals.map (fun v => v / vals.sum * 100) := by
    unfold normalizedOf
    rw [if_neg h0]
  have hrmap : (normalizedOf vals).map round2
      = vals.map (fun v => round2 (v / vals.sum * 100)) := by
    rw [hnorm]
    simp [List.map_map, Function.comp]
  have hRnn : ∀ y ∈ vals.map (fun v => round2 (v / vals.sum * 100)), 0 ≤ y := by
    intro y hy
    obtain ⟨x, hx, rfl⟩ := List.mem_map.mp hy
    exact round2_nonneg _ (mul_nonneg (div_nonneg (hnn x hx) (le_of_lt hpos)) (by norm_num))
  have hmain : normalizeVals vals = normalizeSpecPos vals := by
    unfold normalizeVals roundAndFix fixResidue normalizeSpecPos
    rw [hrmap]
    set R := vals.map (fun v => round2 (v / vals.sum * 100)) with hRdef
    by_cases hres : 1/1000000000 < |100 - R.sum|
    · rw [if_pos hres, if_pos hres]
      by_cases hS : R.sum ≠ 0
      · rw [if_pos hS]
      · rw [if_neg hS]
        push_neg at hS
        have hz : ∀ y ∈ R, y = 0 := sum_eq_zero_mem_zero R hRnn hS
        rw [idxmax_eq_zero_of_all_zero R hz]
    · rw [if_neg hres, if_neg hres]
  refine ⟨hmain, ?_⟩
  rw [← hmain]
  exact sum_normalizeVals vals h

/-- Witness for C2 at the concrete input [10, 10, 10] of the spec. -/
theorem C2_witness :
    ([10, 10, 10] : List ℚ) ≠ [] ∧ (∀ v ∈ ([10, 10, 10] : List ℚ), 0 ≤ v) ∧
      0 < ([10, 10, 10] : List ℚ).sum ∧
      (normalizeVals [10, 10, 10] = normalizeSpecPos [10, 10, 10] ∧
        (normalizeSpecPos [10, 10, 10]).sum = 100) :=
  ⟨by simp, by norm_num [List.forall_mem_cons], by norm_num,
    C2_positive_sum_refines_spec [10, 10, 10] (by simp)
      (by norm_num [List.forall_mem_cons]) (by norm_num)⟩

/-- Counterexample to claim C3 as stated: on the all-zero input [0, 0, 0] the
code does not assign each entry the equal share 100/3; the rounding and
residue stage turns the equal shares into [33.34, 33.33, 33.33], so the
entries are neither 100/3 nor equal to each other. -/
theorem C3_counterexample :
    (([0, 0, 0] : List ℚ).sum = 0) ∧
      normalizeVals [0, 0, 0] ≠ List.replicate 3 ((100 : ℚ) / 3) ∧
      (normalizeVals [0, 0, 0]).getD 0 0 ≠ (normalizeVals [0, 0, 0]).getD 1 0 := by
  have hval : normalizeVals [0, 0, 0] = [3334/100, 3333/100, 3333/100] := by
    norm_num [normalizeVals, normalizedOf, roundAndFix, fixResidue, addToIdx, idxmax,
      round2, rhe, round_eq, abs_of_pos, abs_of_neg, abs_of_nonneg, List.replicate]
  refine ⟨by norm_num, ?_, ?_⟩
  · rw [hval]
    norm_num [List.replicate]
  · rw [hval]
    norm_num

/-- Claim C3 as amended: when the input weights sum to zero the code assigns
each of the count entries the equal share 100/count and then applies the same
two-decimal rounding and residue correction as the general case, with no
division by zero; in particular [0, 0, 0, 0, 0] yields five entries of
exactly 20.00. -/
theorem C3_zero_sum_equal_shares :
    (∀ vals : List ℚ, vals ≠ [] → vals.sum = 0 →
      normalizeVals vals = roundAndFix (List.replicate vals.length (100 / (vals.length : ℚ)))) ∧
      normalizeVals [0, 0, 0, 0, 0] = List.replicate 5 (20 : ℚ) := by
  constructor
  · intro vals _ h0
    unfold normalizeVals normalizedOf
    rw [if_pos h0]
  · norm_num [normalizeVals, normalizedOf, roundAndFix, fixResidue, addToIdx, idxmax,
      round2, rhe, round_eq, abs_of_pos, abs_of_neg, abs_of_nonneg, List.replicate]

/-- Witness for C3 at the concrete zero-sum input [0, 0, 0]. -/
theorem C3_witness :
    ([0, 0, 0] : List ℚ) ≠ [] ∧ ([0, 0, 0] : List ℚ).sum = 0 ∧
      normalizeVals [0, 0, 0] = roundAndFix (List.replicate 3 (100 / ((3 : Nat) : ℚ))) := by
  refine ⟨by simp, by norm_num, ?_⟩
  have h := C3_zero_sum_equal_shares.1 [0, 0, 0] (by simp) (by norm_num)
  simpa using h

/-- Claim C4: `is_allocation_ok` is true exactly when the summed allocation
column is within 1e-6 of 100; it accepts [30, 20, 20, 20, 10] and rejects
[30, 20, 20, 20, 5]. -/
theorem C4_is_allocation_ok_iff :
    (∀ df : List Row, is_allocation_ok df (1/1000000) = true ↔
      |sum_allocations df - 100| ≤ 1/1000000) ∧
      is_allocation_ok (dfOfAllocs [30, 20, 20, 20, 10]) (1/1000000) = true ∧
      is_allocation_ok (dfOfAllocs [30, 20, 20, 20, 5]) (1/1000000) = false := by
  refine ⟨fun df => by simp [is_allocation_ok], ?_, ?_⟩
  · simp only [is_allocation_ok, sum_allocations, allocVals, dfOfAllocs, rowOfCell,
      toNumericFill0, List.map_map, List.map_cons, List.map_nil, List.sum_cons,
      List.sum_nil, Function.comp, decide_eq_true_eq]
    norm_num
  · simp only [is_allocation_ok, sum_allocations, allocVals, dfOfAllocs, rowOfCell,
      toNumericFill0, List.map_map, List.map_cons, List.map_nil, List.sum_cons,
      List.sum_nil, Function.comp, decide_eq_false_iff_not]
    norm_num

/-- Counterexample to claim C5 as stated: [33.333, 33.333, 33.334] is a
non-negative input already summing to 100, yet `normalize_allocations` does
not return it unchanged (rounding rewrites it to [33.34, 33.33, 33.33]). -/
theorem C5_counterexample :
    (([33333/1000, 33333/1000, 33334/1000] : List ℚ).sum = 100) ∧
      (∀ v ∈ ([33333/1000, 33333/1000, 33334/1000] : List ℚ), 0 ≤ v) ∧
      normalizeVals [33333/1000, 33333/1000, 33334/1000]
        ≠ [33333/1000, 33333/1000, 33334/1000] := by
  refine ⟨by norm_num, by norm_num [List.forall_mem_cons], ?_⟩
  have hval : normalizeVals [33333/1000, 33333/1000, 33334/1000]
      = [3334/100, 3333/100, 3333/100] := by
    norm_num [normalizeVals, normalizedOf, roundAndFix, fixResidue, addToIdx, idxmax,
      round2, rhe, round_eq, abs_of_pos, abs_of_neg, abs_of_nonneg, List.replicate]
  rw [hval]
  norm_num

/-- Claim C5 as amended: an input summing to 100 whose entries are already
exact hundredths (as every value the app displays is, for example
[30, 20, 20, 20, 10]) is returned unchanged, and re-applying the normalizer
to its own output always returns that output unchanged. -/
theorem C5_idempotence :
    (∀ vals : List ℚ, vals ≠ [] → (∀ v ∈ vals, ∃ k : ℤ, v = (k : ℚ) / 100) →
      vals.sum = 100 → normalizeVals vals = vals) ∧
      (∀ vals : List ℚ, vals ≠ [] → (∀ v ∈ vals, 0 ≤ v) →
        normalizeVals (normalizeVals vals) = normalizeVals vals) ∧
      normalizeVals [30, 20, 20, 20, 10] = [30, 20, 20, 20, 10] := by
  refine ⟨normalizeVals_fixed, fun vals h _ => normalizeVals_idem vals h, ?_⟩
  norm_num [normalizeVals, normalizedOf, roundAndFix, fixResidue, addToIdx, idxmax,
    round2, rhe, round_eq, abs_of_pos, abs_of_neg, abs_of_nonneg, List.replicate]

/-- Witness for C5: the fixed-point part at [30, 20, 20, 20, 10] and the
idempotence part at [1]. -/
theorem C5_witness :
    (([30, 20, 20, 20, 10] : List ℚ) ≠ [] ∧ ([30, 20, 20, 20, 10] : List ℚ).sum = 100 ∧
      normalizeVals [30, 20, 20, 20, 10] = [30, 20, 20, 20, 10]) ∧
      (([1] : List ℚ) ≠ [] ∧ normalizeVals (normalizeVals [1]) = normalizeVals [1]) := by
  constructor
  · refine ⟨by simp, by norm_num, ?_⟩
    refine C5_idempotence.1 [30, 20, 20, 20, 10] (by simp) ?_ (by norm_num)
    intro v hv
    simp only [List.mem_cons, List.not_mem_nil, or_false] at hv
    rcases hv with rfl | rfl | rfl | rfl | rfl
    exacts [⟨3000, by norm_num⟩, ⟨2000, by norm_num⟩, ⟨2000, by norm_num⟩,
      ⟨2000, by norm_num⟩, ⟨1000, by norm_num⟩]
  · exact ⟨by simp, C5_idempotence.2.1 [1] (by simp) (by norm_num [List.forall_mem_cons])⟩

/-- Counterexample to claim C6 as stated: the 144-entry non-negative input of
143 copies of 0.695 followed by 0.615 sums to 100, every share rounds upward
(69.5 and 61.5 round half to even, to 70 and 62), the rounded sum reaches
100.72, and the residue of -0.72 pushes the first entry (rounded value 0.70)
down to -0.02, a negative output. -/
theorem C6_counterexample :
    (List.replicate 143 ((139 : ℚ)/200) ++ [123/200]) ≠ [] ∧
      (∀ v ∈ List.replicate 143 ((139 : ℚ)/200) ++ [123/200], 0 ≤ v) ∧
      (normalizeVals (List.replicate 143 ((139 : ℚ)/200) ++ [123/200])).getD 0 0 < 0 := by
  refine ⟨by simp, ?_, ?_⟩
  · intro v hv
    rcases List.mem_append.mp hv with h1 | h2
    · rw [List.eq_of_mem_replicate h1]
      norm_num
    · simp only [List.mem_singleton] at h2
      rw [h2]
      norm_num
  · have hsum0 : (List.replicate 143 ((139 : ℚ)/200) ++ [123/200]).sum = 100 := by
      rw [List.sum_append, List.sum_replicate, nsmul_eq_mul]
      norm_num
    have hn : normalizedOf (List.replicate 143 ((139 : ℚ)/200) ++ [123/200])
        = List.replicate 143 ((139 : ℚ)/200) ++ [123/200] := by
      unfold normalizedOf
      rw [if_neg (by rw [hsum0]; norm_num), hsum0]
      have heq : ∀ v ∈ List.replicate 143 ((139 : ℚ)/200) ++ [123/200],
          v / 100 * 100 = id v := fun v _ => div_mul_cancel₀ v (by norm_num)
      rw [List.map_congr_left heq, List.map_id]
    have hr1 : round2 ((139 : ℚ)/200) = 7/10 := by norm_num [round2, rhe]
    have hr2 : round2 ((123 : ℚ)/200) = 62/100 := by norm_num [round2, rhe]
    have hround : (List.replicate 143 ((139 : ℚ)/200) ++ [123/200]).map round2
        = List.replicate 143 ((7 : ℚ)/10) ++ [62/100] := by
      rw [List.map_append, List.map_replicate, hr1]
      simp [hr2]
    have hS : (List.replicate 143 ((7 : ℚ)/10) ++ [62/100]).sum = 2518/25 := by
      rw [List.sum_append, List.sum_replicate, nsmul_eq_mul]
      norm_num
    have hconsform : List.replicate 143 ((7 : ℚ)/10) ++ [62/100]
        = (7 : ℚ)/10 :: (List.replicate 142 ((7 : ℚ)/10) ++ [62/100]) := by
      rw [show (143 : Nat) = 142 + 1 from rfl, List.replicate_succ, List.cons_append]
    have hidx : idxmax (List.replicate 143 ((7 : ℚ)/10) ++ [62/100]) = 0 := by
      rw [hconsform]
      apply idxmax_cons_eq_zero
      intro y hy
      rcases List.mem_append.mp hy with h1 | h2
      · rw [List.eq_of_mem_replicate h1]
      · simp only [List.mem_singleton] at h2
        rw [h2]
        norm_num
    unfold normalizeVals roundAndFix fixResidue
    rw [hn, hround, hS, hidx]
    rw [if_pos (by norm_num [abs_of_neg]), if_pos (by norm_num)]
    rw [hconsform]
    show (addToIdx ((7 : ℚ)/10 :: (List.replicate 142 ((7 : ℚ)/10) ++ [62/100])) 0
      (100 - 2518/25)).getD 0 0 < 0
    simp only [addToIdx, List.set, getD_cons_zero]
    norm_num

/-- Claim C6 as amended: for every non-empty non-negative input with at most
141 entries (the app itself always has 5), every output of the normalizer is
non-negative, including the entry that absorbs the rounding residue.  The
counterexample above shows the bound cannot be dropped: 144 entries can drive
the residue absorber negative. -/
theorem C6_nonneg_outputs (vals : List ℚ) (h : vals ≠ [])
    (hnn : ∀ v ∈ vals, 0 ≤ v) (hlen : vals.length ≤ 141) :
    ∀ v ∈ normalizeVals vals, 0 ≤ v := by
  apply roundAndFix_nonneg
  · exact normalizedOf_ne_nil vals h
  · exact nonneg_normalizedOf vals hnn
  · exact sum_normalizedOf vals h
  · rw [length_normalizedOf]
    exact hlen

/-- Witness for C6 at the concrete input [10, 10, 10]. -/
theorem C6_witness :
    ([10, 10, 10] : List ℚ) ≠ [] ∧ (∀ v ∈ ([10, 10, 10] : List ℚ), 0 ≤ v) ∧
      ([10, 10, 10] : List ℚ).length ≤ 141 ∧
      ∀ v ∈ normalizeVals [10, 10, 10], 0 ≤ v :=
  ⟨by simp, by norm_num [List.forall_mem_cons], by simp,
    C6_nonneg_outputs [10, 10, 10] (by simp) (by norm_num [List.forall_mem_cons]) (by simp)⟩

/-- Claim C7: non-numeric allocation cells are coerced to zero rather than
rejected: both `sum_allocations` and `normalize_allocations` give the same
result when every non-numeric cell is replaced by a numeric 0, and a frame
holding a non-numeric cell simply contributes 0 to the sum (the embedded
functions are total, so no input raises an error). -/
theorem C7_nonnumeric_coerced_to_zero :
    (∀ df : List Row, sum_allocations df = sum_allocations (df.map sanitizeRow)) ∧
      (∀ df : List Row, normalize_allocations df = normalize_allocations (df.map sanitizeRow)) ∧
      sum_allocations [rowOfCell (AllocCell.invalid "not a number"),
        rowOfCell (AllocCell.num 30)] = 30 := by
  have hvals : ∀ df : List Row, allocVals (df.map sanitizeRow) = allocVals df := by
    intro df
    unfold allocVals
    rw [List.map_map]
    apply List.map_congr_left
    intro r _
    simp [Function.comp, sanitizeRow, toNumericFill0]
  refine ⟨?_, ?_, ?_⟩
  · intro df
    unfold sum_allocations
    rw [hvals]
  · intro df
    have hzip : ∀ (rs : List Row) (qs : List ℚ),
        List.zipWith (fun r q => { r with alloc := AllocCell.num q }) (rs.map sanitizeRow) qs
          = List.zipWith (fun r q => { r with alloc := AllocCell.num q }) rs qs := by
      intro rs
      induction rs with
      | nil => intro qs; rfl
      | cons a t ih =>
        intro qs
        cases qs with
        | nil => rfl
        | cons b bs =>
          simp only [List.map_cons, List.zipWith_cons_cons, ih bs]
          rfl
    unfold normalize_allocations
    rw [hvals, hzip]
  · unfold sum_allocations allocVals
    simp only [List.map_cons, List.map_nil, List.sum_cons, List.sum_nil, rowOfCell,
      toNumericFill0]
    norm_num

/-- Claim C8: the CSV export is the UTF-8 encoding of a text made of a header
line followed by one line per asset row, each line being the comma-separated
escaped fields in the column order Asset, Risk, Reward, Time of Investment,
Allocation (%), Source, Reasons. -/
theorem C8_csv_export_structure (df : List Row) :
    df_to_csv_bytes df = (df_to_csv_string df).toUTF8 ∧
      df_to_csv_lines df = csvLine csvHeaderFields :: df.map (fun r => csvLine (rowFields r)) ∧
      (df_to_csv_lines df).length = df.length + 1 ∧
      csvLine csvHeaderFields
        = "Asset,Risk,Reward,Time of Investment,Allocation (%),Source,Reasons" := by
  refine ⟨rfl, rfl, ?_, rfl⟩
  simp [df_to_csv_lines]

/-- Claim C9: `normalize_allocations` is pure on a copy of the frame and only
rewrites the Allocation (%) column: the output has the same length and every
non-allocation column (Asset, Risk, Reward, Time of Investment, Source,
Reasons) is identical to the input. -/
theorem C9_only_allocation_column_changes (df : List Row) :
    (normalize_allocations df).length = df.length ∧
      (normalize_allocations df).map stripAlloc = df.map stripAlloc := by
  have hlen2 : (normalizeVals (allocVals df)).length = df.length := by
    rw [length_normalizeVals]
    simp [allocVals]
  constructor
  · unfold normalize_allocations
    rw [List.length_zipWith, hlen2]
    simp
  · have hgen : ∀ (rs : List Row) (qs : List ℚ), rs.length ≤ qs.length →
        (List.zipWith (fun r q => { r with alloc := AllocCell.num q }) rs qs).map stripAlloc
          = rs.map stripAlloc := by
      intro rs
      induction rs with
      | nil => intro qs _; rfl
      | cons a t ih =>
        intro qs hq
        cases qs with
        | nil => simp at hq
        | cons b bs =>
          simp only [List.zipWith_cons_cons, List.map_cons, ih bs (by simpa using hq)]
          rfl
    unfold normalize_allocations
    apply hgen
    rw [hlen2]

/-- Claim C10: the default portfolio allocations sum to 100, and applying any
of the three presets to a five-row frame yields allocations summing to 100, so
the initial state and every preset state passes `is_allocation_ok` at the
app's tolerance of 1e-6. -/
theorem C10_default_and_presets_ok :
    is_allocation_ok default_portfolio_df (1/1000000) = true ∧
      (∀ df : List Row, df.length = 5 →
        (is_allocation_ok (applyPreset "Default Conservative" df) (1/1000000) = true ∧
          is_allocation_ok (applyPreset "Ultra-safe (more FD/G-Secs)" df) (1/1000000) = true ∧
          is_allocation_ok (applyPreset "Income-focused (more PPF/SCSS)" df) (1/1000000) = true)) := by
  constructor
  · simp only [is_allocation_ok, sum_allocations, allocVals, default_portfolio_df,
      toNumericFill0, List.map_cons, List.map_nil, List.sum_cons, List.sum_nil,
      decide_eq_true_eq]
    norm_num
  · intro df hdf
    match df, hdf with
    | [a, b, c, d, e], _ =>
      refine ⟨?_, ?_, ?_⟩ <;>
        · simp only [applyPreset, setAllocColumn, is_allocation_ok, sum_allocations,
            allocVals, toNumericFill0, List.zipWith_cons_cons, List.zipWith_nil_right,
            List.map_cons, List.map_nil, List.sum_cons, List.sum_nil, decide_eq_true_eq,
            String.reduceEq, if_true, if_false, ite_true, ite_false, reduceIte]
          norm_num

/-- Witness for C10 at the five-row default portfolio frame. -/
theorem C10_witness :
    default_portfolio_df.length = 5 ∧
      (is_allocation_ok (applyPreset "Default Conservative" default_portfolio_df) (1/1000000) = true ∧
        is_allocation_ok (applyPreset "Ultra-safe (more FD/G-Secs)" default_portfolio_df) (1/1000000) = true ∧
        is_allocation_ok (applyPreset "Income-focused (more PPF/SCSS)" default_portfolio_df) (1/1000000) = true) :=
  ⟨by simp [default_portfolio_df],
    C10_default_and_presets_ok.2 default_portfolio_df (by simp [default_portfolio_df])⟩
